import Mathlib

/-!
Shallow embedding of the FridgePal core (src/app.py): the ingredient
normalizer (`singularize`, `normalize`, the `SYNONYMS` table), the matcher
(`match_recipes`) over the hardcoded recipe catalog, and the ranking step
performed inline in the `index` route (coverage computation, the
`have > 0` filter, and the sort by coverage descending / lowercased name
ascending).

Modelling conventions: Python `str` is Lean `String`; `str.lower()`,
`str.strip()` and the single-character `str.replace` calls are per-character
operations on `String.data` (ASCII-faithful); Python dicts are association
lists in insertion order (`dict.get(k, d)` is `lookupD`); Python `set`
membership is list membership of the collected elements; Python `float`
coverage is `ℚ` (all coverages are small exact rationals, and rounding of
`h/t` for `t ≤ 5` is strictly monotone, so ordering is preserved); the
stable `list.sort` is insertion sort with the same key order.
-/

namespace FridgePal

/-- ASCII whitespace stripped by Python `str.strip()`. -/
def pyIsSpace (c : Char) : Bool :=
  c = ' ' ∨ c = '\t' ∨ c = '\n' ∨ c = '\r' ∨ c = '\x0b' ∨ c = '\x0c'

/-- ASCII lowercasing of one character, as Python `str.lower()` does. -/
def lowerChar (c : Char) : Char :=
  if 'A' ≤ c ∧ c ≤ 'Z' then Char.ofNat (c.toNat + 32) else c

/-- Python `w.lower()` (ASCII). -/
def pyLower (s : String) : String := ⟨s.data.map lowerChar⟩

/-- Python `w.strip()`. -/
def pyStrip (s : String) : String :=
  ⟨((s.data.dropWhile pyIsSpace).reverse.dropWhile pyIsSpace).reverse⟩

/-- One character of `w.replace("_"," ").replace("-"," ")`. -/
def sepChar (c : Char) : Char := if c = '_' ∨ c = '-' then ' ' else c

/-- Python `w.replace("_"," ").replace("-"," ")` (single-char patterns act
per character). -/
def pySep (s : String) : String := ⟨s.data.map sepChar⟩

/-- Lines 52-53 of app.py: `w = (word).lower().strip()` then the separator
replacements. -/
def preprocess (s : String) : String := pySep (pyStrip (pyLower s))

/-- The SYNONYMS dict of app.py (lines 35-42), in insertion order. -/
def SYNONYMS : List (String × String) :=
  [("tomatoes", "tomato"), ("bell pepper", "pepper"), ("peppers", "pepper"),
   ("yoghurt", "yogurt"), ("buttermilk", "milk"), ("buns", "bun"),
   ("tortillas", "tortilla"), ("breads", "bread"), ("eggs", "egg"),
   ("onions", "onion"), ("garlics", "garlic"), ("berries", "berry"),
   ("strawberries", "strawberry"), ("tomatos", "tomato"),
   ("oliveoil", "olive oil"), ("olive-oil", "olive oil")]

/-- Python `dict.get(k, d)` over an association list. -/
def lookupD (t : List (String × String)) (k d : String) : String :=
  match t.find? (fun p => p.1 == k) with
  | some pr => pr.2
  | none => d

/-- Membership of `k` among the keys of the table (`k in dict`). -/
def inTable (t : List (String × String)) (k : String) : Bool :=
  t.any (fun p => p.1 == k)

/-- Python `w.endswith(suf)`. -/
def strEndsWith (w suf : String) : Bool := suf.data.isSuffixOf w.data

/-- Python slicing `w[:n]` for `n ≤ len(w)`. -/
def strTake (s : String) (n : Nat) : String := ⟨s.data.take n⟩

/-- The singularize function of app.py (lines 44-49). -/
def singularize (w : String) : String :=
  if strEndsWith w "ies" = true ∧ 3 < w.length then strTake w (w.length - 3) ++ "y"
  else if strEndsWith w "oes" = true ∧ 3 < w.length then strTake w (w.length - 2)
  else if strEndsWith w "es" = true ∧ 2 < w.length then strTake w (w.length - 2)
  else if strEndsWith w "s" = true ∧ 1 < w.length then strTake w (w.length - 1)
  else w

/-- The normalize function of app.py (lines 51-56). -/
def normalize (word : String) : String :=
  let w := preprocess word
  let w1 := lookupD SYNONYMS w w
  lookupD SYNONYMS (singularize w1) (singularize w1)

/-- normalize on an optional argument: `(word or "")` maps Python `None`
(and `""`) to `""`. -/
def normalizeOpt (word : Option String) : String := normalize (word.getD "")

/-- The hardcoded recipe catalog of app.py (lines 7-28), in insertion
order. -/
def recipes : List (String × List String) :=
  [("Omelette", ["eggs", "milk", "cheese", "butter"]),
   ("Tomato Pasta", ["tomato", "pasta", "olive oil", "garlic"]),
   ("French Toast", ["bread", "eggs", "milk", "syrup"]),
   ("Salad", ["lettuce", "tomato", "cucumber", "olive oil"]),
   ("Grilled Cheese", ["bread", "cheese", "butter"]),
   ("Pancakes", ["flour", "eggs", "milk", "syrup"]),
   ("Smoothie", ["banana", "milk", "yogurt", "berries"]),
   ("Fried Rice", ["rice", "eggs", "soy sauce", "carrot", "peas"]),
   ("Tacos", ["tortilla", "beef", "cheese", "lettuce", "tomato"]),
   ("Guacamole", ["avocado", "tomato", "onion", "lime"]),
   ("Pizza", ["dough", "tomato", "cheese", "olive oil"]),
   ("Sandwich", ["bread", "cheese", "lettuce", "tomato"]),
   ("Chicken Soup", ["chicken", "carrot", "celery", "onion"]),
   ("Stir Fry", ["chicken", "broccoli", "soy sauce", "garlic"]),
   ("Quesadilla", ["tortilla", "cheese", "chicken"]),
   ("Mac and Cheese", ["pasta", "cheese", "milk", "butter"]),
   ("Curry", ["chicken", "rice", "curry powder", "onion", "tomato"]),
   ("Veggie Wrap", ["tortilla", "lettuce", "cucumber", "tomato", "cheese"]),
   ("Burger", ["bun", "beef", "lettuce", "tomato", "cheese"]),
   ("Scrambled Eggs", ["eggs", "milk", "butter"])]

/-- Line 112 of app.py: `set(normalize(i) for i in ingredients if i)`,
kept as the list of collected elements (only membership is consumed). -/
def normSet (ingredients : List String) : List String :=
  (ingredients.filter (fun i => i != "")).map normalize

/-- The match_recipes function of app.py (lines 111-122): the loop that
appends each requirement to `have` or `missing` is `List.partition`. -/
def matchRecipes (ingredients : List String) : List (String × List String × List String) :=
  recipes.map (fun p =>
    (p.1, p.2.partition (fun r => (normSet ingredients).contains (normalize r))))

/-- Line 176 of app.py: `coverage = (have / total) if total else 0` with
`total = have + missing`. -/
def coverageOf (h m : Nat) : ℚ :=
  if h + m = 0 then 0 else (h : ℚ) / ((h : ℚ) + (m : ℚ))

/-- One entry of the `scored` list built in `index`: name, the
have/missing pair, coverage. -/
abbrev Row := String × (List String × List String) × ℚ

/-- Lines 172-178 of app.py: compute coverage for every match-result entry
and keep exactly those with `have > 0`. -/
def scoredOf (ms : List (String × List String × List String)) : List Row :=
  ms.filterMap (fun p =>
    if 0 < p.2.1.length then some (p.1, p.2, coverageOf p.2.1.length p.2.2.length)
    else none)

/-- The sort key order of line 179: `(-coverage, name.lower())`
ascending, i.e. coverage descending then lowercased name ascending. -/
def entryLe (a b : Row) : Prop :=
  b.2.2 < a.2.2 ∨ (a.2.2 = b.2.2 ∧ pyLower a.1 ≤ pyLower b.1)

instance : DecidableRel entryLe := fun a b => by
  unfold entryLe; exact inferInstance

instance : IsTotal Row entryLe := by
  constructor
  intro a b
  rcases lt_trichotomy a.2.2 b.2.2 with h | h | h
  · exact Or.inr (Or.inl h)
  · rcases le_total (pyLower a.1) (pyLower b.1) with hs | hs
    · exact Or.inl (Or.inr ⟨h, hs⟩)
    · exact Or.inr (Or.inr ⟨h.symm, hs⟩)
  · exact Or.inl (Or.inl h)

instance : IsTrans Row entryLe := by
  constructor
  intro a b c hab hbc
  rcases hab with hab | ⟨hab, hab2⟩ <;> rcases hbc with hbc | ⟨hbc, hbc2⟩
  · exact Or.inl (lt_trans hbc hab)
  · exact Or.inl (hbc ▸ hab)
  · exact Or.inl (hab ▸ hbc)
  · exact Or.inr ⟨hab.trans hbc, le_trans hab2 hbc2⟩

/-- Line 179 of app.py: the stable sort of `scored` by
`(-coverage, name.lower())`, as a stable insertion sort on the same key
order. -/
def rankMatches (ms : List (String × List String × List String)) : List Row :=
  List.insertionSort entryLe (scoredOf ms)

/-- The match-then-rank pipeline of the POST branch of `index`
(lines 171-179). -/
def pipeline (ingredients : List String) : List Row :=
  rankMatches (matchRecipes ingredients)

/-- A three-recipe match result realising the coverages of the spec's
ranking example: Pizza 3/4, Sandwich 3/4, Omelette 1. -/
def msEx : List (String × List String × List String) :=
  [("Pizza", ["dough", "tomato", "cheese"], ["olive oil"]),
   ("Sandwich", ["bread", "cheese", "lettuce"], ["tomato"]),
   ("Omelette", ["eggs", "milk", "cheese", "butter"], [])]

/-! ### Helper lemmas -/

/-- Every value stored in SYNONYMS is a fixed point of the second lookup
step: singularizing it and looking the result up again returns the value
itself. -/
lemma synonym_values_stable :
    ∀ p ∈ SYNONYMS, lookupD SYNONYMS (singularize p.2) (singularize p.2) = p.2 := by
  decide

/-- No value stored in SYNONYMS is itself a key of SYNONYMS. -/
lemma synonym_values_not_keys :
    ∀ p ∈ SYNONYMS, inTable SYNONYMS p.2 = false := by
  decide

lemma inTable_of_find?_eq_some {t : List (String × String)} {k : String}
    {pr : String × String} (h : t.find? (fun p => p.1 == k) = some pr) :
    inTable t k = true := by
  unfold inTable
  have h1 := List.find?_some h
  exact List.any_eq_true.mpr ⟨pr, List.mem_of_find?_eq_some h, h1⟩

lemma lookupD_of_not_inTable {t : List (String × String)} {k : String} (d : String)
    (h : inTable t k = false) : lookupD t k d = d := by
  rcases hf : t.find? (fun p => p.1 == k) with _ | pr
  · unfold lookupD; rw [hf]
  · exact absurd (inTable_of_find?_eq_some hf) (by simp [h])

/-- The output of normalize is never a key of SYNONYMS: it is either a
synonym value (and no value is a key) or a string on which the final
lookup already failed. -/
lemma normalize_not_inTable (s : String) : inTable SYNONYMS (normalize s) = false := by
  unfold normalize
  set w1 := lookupD SYNONYMS (preprocess s) (preprocess s) with hw1
  set u := singularize w1 with hu
  rcases hf : SYNONYMS.find? (fun p => p.1 == u) with _ | pr
  · have hl : lookupD SYNONYMS u u = u := by
      unfold lookupD; rw [hf]
    rw [hl]
    rcases hb : inTable SYNONYMS u with _ | _
    · rfl
    · exfalso
      rcases List.any_eq_true.mp hb with ⟨x, hx, hpx⟩
      have hs : (SYNONYMS.find? (fun p => p.1 == u)).isSome :=
        List.find?_isSome.mpr ⟨x, hx, hpx⟩
      rw [hf] at hs
      exact absurd hs (by decide)
  · have hl : lookupD SYNONYMS u u = pr.2 := by
      unfold lookupD; rw [hf]
    rw [hl]
    exact synonym_values_not_keys pr (List.mem_of_find?_eq_some hf)

/-- Partition as the two filters, specialised to the matcher. -/
lemma matchRecipes_eq (ingredients : List String) :
    matchRecipes ingredients =
      recipes.map (fun p =>
        (p.1,
         p.2.filter (fun r => (normSet ingredients).contains (normalize r)),
         p.2.filter (fun r => !(normSet ingredients).contains (normalize r)))) := by
  unfold matchRecipes
  apply List.map_congr_left
  intro p _
  rw [List.partition_eq_filter_filter]
  rfl

lemma length_filter_add_length_filter_not (l : List String) (p : String → Bool) :
    (l.filter p).length + (l.filter (fun r => !p r)).length = l.length := by
  induction l with
  | nil => rfl
  | cons a l ih =>
    rcases h : p a with _ | _ <;> simp [List.filter_cons, h] <;> omega

/-- Membership in the ranked output: exactly the match-result entries with
a positive have-count, paired with their coverage. -/
lemma mem_rankMatches_iff (ms : List (String × List String × List String))
    (n : String) (hv mi : List String) (c : ℚ) :
    ((n, (hv, mi), c) : Row) ∈ rankMatches ms ↔
      ((n, hv, mi) ∈ ms ∧ 0 < hv.length ∧ c = coverageOf hv.length mi.length) := by
  unfold rankMatches
  rw [List.mem_insertionSort]
  unfold scoredOf
  rw [List.mem_filterMap]
  constructor
  · rintro ⟨p, hp, hfeq⟩
    by_cases h : 0 < p.2.1.length
    · rw [if_pos h] at hfeq
      have heq := Option.some.inj hfeq
      rcases p with ⟨pn, ph, pm⟩
      simp only [Prod.mk.injEq] at heq
      obtain ⟨rfl, ⟨rfl, rfl⟩, rfl⟩ := heq
      exact ⟨hp, h, rfl⟩
    · rw [if_neg h] at hfeq
      cases hfeq
  · rintro ⟨hmem, hpos, rfl⟩
    refine ⟨(n, hv, mi), hmem, ?_⟩
    rw [if_pos hpos]

/-! ### Claim theorems -/

/-- C6: concrete normalization results: the three separator/case variants
of olive oil all normalize to "olive oil"; plurals "tomatoes" and
"berries" collapse to "tomato" and "berry" while "tomato" is fixed; the
synonyms "buttermilk" and "yoghurt" map to "milk" and "yogurt". -/
theorem normalize_examples :
    normalize "Olive-Oil" = "olive oil" ∧ normalize "olive_oil" = "olive oil" ∧
    normalize "OLIVE OIL" = "olive oil" ∧ normalize "tomatoes" = "tomato" ∧
    normalize "tomato" = "tomato" ∧ normalize "berries" = "berry" ∧
    normalize "buttermilk" = "milk" ∧ normalize "yoghurt" = "yogurt" := by
  decide

/-- C8: normalize is total (it is a Lean function, hence never raises),
maps the empty string to the empty string, and maps an absent (None)
input to the empty string via the `(word or "")` coercion. -/
theorem normalize_total_empty :
    normalize "" = "" ∧ normalizeOpt none = "" ∧
    ∀ w : Option String, normalizeOpt w = normalize (w.getD "") :=
  ⟨by decide, by decide, fun _ => rfl⟩

/-- C1 counterexample: normalization is NOT idempotent on the code:
normalize "pass" = "pas" (the trailing "s" rule fires once), but
normalizing the result again gives "pa", because normalize re-applies
singularize on every call. -/
theorem normalize_not_idempotent_cex :
    ¬ normalize (normalize "pass") = normalize "pass" := by
  decide

/-- C1 amended: normalize is idempotent on every string whose normalized
form is already preprocessing-stable and singularize-stable; the output
is never a key of the synonym table, so under those two conditions a
second pass changes nothing. In general idempotence fails (see the
counterexample). -/
theorem normalize_idempotent_of_stable (s : String)
    (h1 : preprocess (normalize s) = normalize s)
    (h2 : singularize (normalize s) = normalize s) :
    normalize (normalize s) = normalize s := by
  have hk : inTable SYNONYMS (normalize s) = false := normalize_not_inTable s
  show lookupD SYNONYMS
      (singularize (lookupD SYNONYMS (preprocess (normalize s)) (preprocess (normalize s))))
      (singularize (lookupD SYNONYMS (preprocess (normalize s)) (preprocess (normalize s)))) =
    normalize s
  rw [h1, lookupD_of_not_inTable _ hk, h2, lookupD_of_not_inTable _ hk]

/-- C1 amended, witness at "tomatoes": its normalized form "tomato" is
stable, so a second normalization returns it unchanged. -/
theorem normalize_idempotent_of_stable_witness :
    preprocess (normalize "tomatoes") = normalize "tomatoes" ∧
    singularize (normalize "tomatoes") = normalize "tomatoes" ∧
    normalize (normalize "tomatoes") = normalize "tomatoes" :=
  ⟨by decide, by decide, normalize_idempotent_of_stable "tomatoes" (by decide) (by decide)⟩

/-- C5: whenever the lowercased, trimmed, separator-replaced form of the
input is a key of SYNONYMS, normalize returns exactly the mapped value of
that key (the singularize pass applied afterwards never alters a
substituted synonym value on this table). -/
theorem synonym_shortcircuit (s : String)
    (h : inTable SYNONYMS (preprocess s) = true) :
    normalize s = lookupD SYNONYMS (preprocess s) (preprocess s) := by
  rcases hf : SYNONYMS.find? (fun p => p.1 == preprocess s) with _ | pr
  · exfalso
    rcases List.any_eq_true.mp h with ⟨x, hx, hpx⟩
    have hs : (SYNONYMS.find? (fun p => p.1 == preprocess s)).isSome :=
      List.find?_isSome.mpr ⟨x, hx, hpx⟩
    rw [hf] at hs
    exact absurd hs (by decide)
  · have hl : lookupD SYNONYMS (preprocess s) (preprocess s) = pr.2 := by
      unfold lookupD; rw [hf]
    show lookupD SYNONYMS
        (singularize (lookupD SYNONYMS (preprocess s) (preprocess s)))
        (singularize (lookupD SYNONYMS (preprocess s) (preprocess s))) =
      lookupD SYNONYMS (preprocess s) (preprocess s)
    rw [hl]
    exact synonym_values_stable pr (List.mem_of_find?_eq_some hf)

/-- C5 witness at "Yoghurt": its preprocessed form "yoghurt" is a key of
SYNONYMS, and normalize returns the mapped value. -/
theorem synonym_shortcircuit_witness :
    inTable SYNONYMS (preprocess "Yoghurt") = true ∧
    normalize "Yoghurt" = lookupD SYNONYMS (preprocess "Yoghurt") (preprocess "Yoghurt") :=
  ⟨by decide, synonym_shortcircuit "Yoghurt" (by decide)⟩

/-- C9: the match-then-rank pipeline is a pure function of the input
ingredient sequence: two invocations on equal inputs produce identical
ranked output. -/
theorem pipeline_deterministic (xs ys : List String) (h : xs = ys) :
    pipeline xs = pipeline ys := by
  rw [h]

/-- C9 witness: two invocations on the same concrete input agree. -/
theorem pipeline_deterministic_witness :
    pipeline ["egg", "milk"] = pipeline ["egg", "milk"] :=
  pipeline_deterministic _ _ rfl

/-- C3: every recipe of the catalog appears as a key of the match result,
in the catalog's insertion order; each requirement list is split into
`have` (normalized form in the normalized ingredient set) and `missing`
(the rest), both preserving the original requirement order (they are the
two order-preserving filters); and for ingredients
["egg","milk","butter"] the recipe "Scrambled Eggs" yields
have = ["eggs","milk","butter"], missing = [], coverage 1. -/
theorem match_partition_spec :
    (∀ ings : List String, (matchRecipes ings).map Prod.fst = recipes.map Prod.fst) ∧
    (∀ (ings : List String) (n : String) (hv ms : List String),
        (n, hv, ms) ∈ matchRecipes ings →
        ∃ reqs, (n, reqs) ∈ recipes ∧
          hv = reqs.filter (fun r => (normSet ings).contains (normalize r)) ∧
          ms = reqs.filter (fun r => !(normSet ings).contains (normalize r))) ∧
    (("Scrambled Eggs", ["eggs", "milk", "butter"], ([] : List String)) ∈
        matchRecipes ["egg", "milk", "butter"] ∧ coverageOf 3 0 = 1) := by
  refine ⟨?_, ?_, by decide, by norm_num [coverageOf]⟩
  · intro ings
    rw [matchRecipes_eq, List.map_map]
    apply List.map_congr_left
    intro p _
    rfl
  · intro ings n hv ms hmem
    rw [matchRecipes_eq] at hmem
    rcases List.mem_map.mp hmem with ⟨p, hp, heq⟩
    rcases p with ⟨pn, preqs⟩
    simp only [Prod.mk.injEq] at heq
    obtain ⟨rfl, rfl, rfl⟩ := heq
    exact ⟨preqs, hp, rfl, rfl⟩

/-- C3 witness at "Omelette" for ingredients ["egg","milk","butter"]:
its have/missing lists are the two filters of its requirement list. -/
theorem match_partition_spec_witness :
    ∃ reqs, ("Omelette", reqs) ∈ recipes ∧
      ["eggs", "milk", "butter"] =
        reqs.filter (fun r => (normSet ["egg", "milk", "butter"]).contains (normalize r)) ∧
      ["cheese"] =
        reqs.filter (fun r => !(normSet ["egg", "milk", "butter"]).contains (normalize r)) :=
  match_partition_spec.2.1 ["egg", "milk", "butter"] "Omelette"
    ["eggs", "milk", "butter"] ["cheese"] (by decide)

/-- C4: for every entry of the match result, have-count plus
missing-count equals the recipe's requirement count, coverage is
have/(have+missing) when the recipe has at least one requirement and 0
when it has none; and for ingredients ["egg","milk","butter"] the
"Omelette" entry has missing = ["cheese"] and coverage 3/4. -/
theorem coverage_spec :
    (∀ (ings : List String) (n : String) (hv ms : List String),
        (n, hv, ms) ∈ matchRecipes ings →
        ∃ reqs, (n, reqs) ∈ recipes ∧ hv.length + ms.length = reqs.length ∧
          (reqs.length ≠ 0 →
            coverageOf hv.length ms.length =
              (hv.length : ℚ) / ((hv.length : ℚ) + (ms.length : ℚ))) ∧
          (reqs.length = 0 → coverageOf hv.length ms.length = 0)) ∧
    (("Omelette", ["eggs", "milk", "butter"], ["cheese"]) ∈
        matchRecipes ["egg", "milk", "butter"] ∧ coverageOf 3 1 = 3 / 4) := by
  refine ⟨?_, by decide, by norm_num [coverageOf]⟩
  intro ings n hv ms hmem
  rw [matchRecipes_eq] at hmem
  rcases List.mem_map.mp hmem with ⟨p, hp, heq⟩
  rcases p with ⟨pn, preqs⟩
  simp only [Prod.mk.injEq] at heq
  obtain ⟨rfl, rfl, rfl⟩ := heq
  have hlen := length_filter_add_length_filter_not preqs
    (fun r => (normSet ings).contains (normalize r))
  refine ⟨preqs, hp, hlen, ?_, ?_⟩
  · intro hne
    unfold coverageOf
    rw [if_neg (by omega)]
  · intro h0
    unfold coverageOf
    rw [if_pos (by omega)]

/-- C4 witness at "Omelette" for ingredients ["egg","milk","butter"]:
3 + 1 requirements, and coverage is 3/(3+1). -/
theorem coverage_spec_witness :
    ∃ reqs, ("Omelette", reqs) ∈ recipes ∧
      (["eggs", "milk", "butter"] : List String).length +
        (["cheese"] : List String).length = reqs.length ∧
      (reqs.length ≠ 0 →
        coverageOf (["eggs", "milk", "butter"] : List String).length
            (["cheese"] : List String).length =
          ((["eggs", "milk", "butter"] : List String).length : ℚ) /
            (((["eggs", "milk", "butter"] : List String).length : ℚ) +
              ((["cheese"] : List String).length : ℚ))) ∧
      (reqs.length = 0 →
        coverageOf (["eggs", "milk", "butter"] : List String).length
            (["cheese"] : List String).length = 0) :=
  coverage_spec.1 ["egg", "milk", "butter"] "Omelette"
    ["eggs", "milk", "butter"] ["cheese"] (by decide)

/-- C7: the four ordered suffix rules of singularize, universally, with
first-match-wins semantics: each rule fires exactly when its own
suffix-and-length guard holds and every earlier rule's guard fails, and
when no guard holds the word is unchanged; "tomatoes", "boxes" and "es"
exercise the "oes", "es" and "s" rules (for "es" the "es" rule's length
guard fails, so the "s" rule fires); the one-letter word "s" is
unchanged; singularize never empties a non-empty string; and "eggs"
becomes "egg" both through the suffix rule and the explicit SYNONYMS
entry, the two paths agreeing with normalize. -/
theorem singularize_rules :
    (∀ w : String, strEndsWith w "ies" = true ∧ 3 < w.length →
        singularize w = strTake w (w.length - 3) ++ "y") ∧
    (∀ w : String, ¬ (strEndsWith w "ies" = true ∧ 3 < w.length) →
        strEndsWith w "oes" = true ∧ 3 < w.length →
        singularize w = strTake w (w.length - 2)) ∧
    (∀ w : String, ¬ (strEndsWith w "ies" = true ∧ 3 < w.length) →
        ¬ (strEndsWith w "oes" = true ∧ 3 < w.length) →
        strEndsWith w "es" = true ∧ 2 < w.length →
        singularize w = strTake w (w.length - 2)) ∧
    (∀ w : String, ¬ (strEndsWith w "ies" = true ∧ 3 < w.length) →
        ¬ (strEndsWith w "oes" = true ∧ 3 < w.length) →
        ¬ (strEndsWith w "es" = true ∧ 2 < w.length) →
        strEndsWith w "s" = true ∧ 1 < w.length →
        singularize w = strTake w (w.length - 1)) ∧
    (∀ w : String, ¬ (strEndsWith w "ies" = true ∧ 3 < w.length) →
        ¬ (strEndsWith w "oes" = true ∧ 3 < w.length) →
        ¬ (strEndsWith w "es" = true ∧ 2 < w.length) →
        ¬ (strEndsWith w "s" = true ∧ 1 < w.length) →
        singularize w = w) ∧
    singularize "tomatoes" = "tomato" ∧ singularize "boxes" = "box" ∧
    singularize "es" = "e" ∧ singularize "s" = "s" ∧
    (∀ w : String, ¬ w = "" → ¬ singularize w = "") ∧
    singularize "eggs" = "egg" ∧ lookupD SYNONYMS "eggs" "eggs" = "egg" ∧
    normalize "eggs" = "egg" := by
  refine ⟨?_, ?_, ?_, ?_, ?_, by decide, by decide, by decide, by decide, ?_,
    by decide, by decide, by decide⟩
  · intro w h1
    unfold singularize
    rw [if_pos h1]
  · intro w h1 h2
    unfold singularize
    rw [if_neg h1, if_pos h2]
  · intro w h1 h2 h3
    unfold singularize
    rw [if_neg h1, if_neg h2, if_pos h3]
  · intro w h1 h2 h3 h4
    unfold singularize
    rw [if_neg h1, if_neg h2, if_neg h3, if_pos h4]
  · intro w h1 h2 h3 h4
    unfold singularize
    rw [if_neg h1, if_neg h2, if_neg h3, if_neg h4]
  · intro w hw
    unfold singularize
    split_ifs with h1 h2 h3 h4
    · intro hc
      have hd : w.data.take (w.length - 3) ++ "y".data = [] := congrArg String.data hc
      have hl := congrArg List.length hd
      have hy : ("y".data).length = 1 := rfl
      rw [List.length_append, hy, List.length_nil] at hl
      omega
    · obtain ⟨h2a, h2b⟩ := h2
      intro hc
      have hd : w.data.take (w.length - 2) = [] := congrArg String.data hc
      have hl := congrArg List.length hd
      rw [List.length_take, List.length_nil] at hl
      have hlw : w.data.length = w.length := rfl
      omega
    · obtain ⟨h3a, h3b⟩ := h3
      intro hc
      have hd : w.data.take (w.length - 2) = [] := congrArg String.data hc
      have hl := congrArg List.length hd
      rw [List.length_take, List.length_nil] at hl
      have hlw : w.data.length = w.length := rfl
      omega
    · obtain ⟨h4a, h4b⟩ := h4
      intro hc
      have hd : w.data.take (w.length - 1) = [] := congrArg String.data hc
      have hl := congrArg List.length hd
      rw [List.length_take, List.length_nil] at hl
      have hlw : w.data.length = w.length := rfl
      omega
    · exact hw

/-- C7 witness at "es": the first three guards fail (the "es" rule's
length guard among them), the "s" guard holds, and the "s" rule fires as
the theorem states; also "glasses" is non-empty and singularize keeps it
non-empty. -/
theorem singularize_rules_witness :
    (¬ (strEndsWith "es" "ies" = true ∧ 3 < ("es" : String).length) ∧
     ¬ (strEndsWith "es" "oes" = true ∧ 3 < ("es" : String).length) ∧
     ¬ (strEndsWith "es" "es" = true ∧ 2 < ("es" : String).length) ∧
     (strEndsWith "es" "s" = true ∧ 1 < ("es" : String).length) ∧
     singularize "es" = strTake "es" (("es" : String).length - 1)) ∧
    (¬ ("glasses" : String) = "" ∧ ¬ singularize "glasses" = "") :=
  ⟨⟨by decide, by decide, by decide, by decide,
    singularize_rules.2.2.2.1 "es" (by decide) (by decide) (by decide) (by decide)⟩,
   by decide, singularize_rules.2.2.2.2.2.2.2.2.2.1 "glasses" (by decide)⟩

/-- C2: the ranked output is sorted by coverage descending with ties
broken by lowercased name ascending; it contains exactly the match-result
entries whose have-count is positive, each paired with its coverage; on
the Pizza 3/4 / Sandwich 3/4 / Omelette 1 example the order is
[Omelette, Pizza, Sandwich]; and a zero-overlap recipe ("Omelette" for
ingredient "bread") is still reported by match with coverage 0 but is
absent from the ranked output. -/
theorem rank_filter_sort_spec :
    (∀ ms : List (String × List String × List String),
        List.Sorted entryLe (rankMatches ms)) ∧
    (∀ (ms : List (String × List String × List String)) (n : String)
        (hv mi : List String) (c : ℚ),
        ((n, (hv, mi), c) : Row) ∈ rankMatches ms ↔
          ((n, hv, mi) ∈ ms ∧ 0 < hv.length ∧ c = coverageOf hv.length mi.length)) ∧
    (rankMatches msEx).map (fun e => e.1) = ["Omelette", "Pizza", "Sandwich"] ∧
    ("Omelette", ([] : List String), ["eggs", "milk", "cheese", "butter"]) ∈
      matchRecipes ["bread"] ∧
    coverageOf 0 4 = 0 ∧
    (∀ (hv mi : List String) (c : ℚ),
        (("Omelette", (hv, mi), c) : Row) ∉ pipeline ["bread"]) := by
  refine ⟨fun ms => List.sorted_insertionSort entryLe _,
    fun ms n hv mi c => mem_rankMatches_iff ms n hv mi c,
    ?_, by decide, by norm_num [coverageOf], ?_⟩
  · have hc31 : coverageOf 3 1 = 3 / 4 := by norm_num [coverageOf]
    have hc40 : coverageOf 4 0 = 1 := by norm_num [coverageOf]
    have hps : entryLe
        ("Pizza", (["dough", "tomato", "cheese"], ["olive oil"]), coverageOf 3 1)
        ("Sandwich", (["bread", "cheese", "lettuce"], ["tomato"]), coverageOf 3 1) := by
      refine Or.inr ⟨rfl, ?_⟩
      show pyLower "Pizza" ≤ pyLower "Sandwich"
      rw [show pyLower "Pizza" = "pizza" from rfl,
        show pyLower "Sandwich" = "sandwich" from rfl, String.le_iff_toList_le]
      decide
    have hso : ¬ entryLe
        ("Sandwich", (["bread", "cheese", "lettuce"], ["tomato"]), coverageOf 3 1)
        ("Omelette", (["eggs", "milk", "cheese", "butter"], []), coverageOf 4 0) := by
      intro h
      unfold entryLe at h
      rcases h with hlt | ⟨heq, -⟩
      · rw [hc31, hc40] at hlt; norm_num at hlt
      · rw [hc31, hc40] at heq; norm_num at heq
    have hpo : ¬ entryLe
        ("Pizza", (["dough", "tomato", "cheese"], ["olive oil"]), coverageOf 3 1)
        ("Omelette", (["eggs", "milk", "cheese", "butter"], []), coverageOf 4 0) := by
      intro h
      unfold entryLe at h
      rcases h with hlt | ⟨heq, -⟩
      · rw [hc31, hc40] at hlt; norm_num at hlt
      · rw [hc31, hc40] at heq; norm_num at heq
    have hO : List.orderedInsert entryLe
        ("Omelette", (["eggs", "milk", "cheese", "butter"], []), coverageOf 4 0) [] =
        [("Omelette", (["eggs", "milk", "cheese", "butter"], []), coverageOf 4 0)] := rfl
    have hS : List.orderedInsert entryLe
        ("Sandwich", (["bread", "cheese", "lettuce"], ["tomato"]), coverageOf 3 1)
        [("Omelette", (["eggs", "milk", "cheese", "butter"], []), coverageOf 4 0)] =
        [("Omelette", (["eggs", "milk", "cheese", "butter"], []), coverageOf 4 0),
         ("Sandwich", (["bread", "cheese", "lettuce"], ["tomato"]), coverageOf 3 1)] := by
      simp only [List.orderedInsert]
      rw [if_neg hso]
    have hP : List.orderedInsert entryLe
        ("Pizza", (["dough", "tomato", "cheese"], ["olive oil"]), coverageOf 3 1)
        [("Omelette", (["eggs", "milk", "cheese", "butter"], []), coverageOf 4 0),
         ("Sandwich", (["bread", "cheese", "lettuce"], ["tomato"]), coverageOf 3 1)] =
        [("Omelette", (["eggs", "milk", "cheese", "butter"], []), coverageOf 4 0),
         ("Pizza", (["dough", "tomato", "cheese"], ["olive oil"]), coverageOf 3 1),
         ("Sandwich", (["bread", "cheese", "lettuce"], ["tomato"]), coverageOf 3 1)] := by
      simp only [List.orderedInsert]
      rw [if_neg hpo, if_pos hps]
    unfold rankMatches
    rw [show scoredOf msEx =
        [("Pizza", (["dough", "tomato", "cheese"], ["olive oil"]), coverageOf 3 1),
         ("Sandwich", (["bread", "cheese", "lettuce"], ["tomato"]), coverageOf 3 1),
         ("Omelette", (["eggs", "milk", "cheese", "butter"], []), coverageOf 4 0)] from rfl]
    simp only [List.insertionSort]
    rw [hO, hS, hP]
    rfl
  · intro hv mi c hmem
    unfold pipeline at hmem
    rcases (mem_rankMatches_iff _ _ _ _ _).mp hmem with ⟨hm, hpos, -⟩
    have hz : ∀ p ∈ matchRecipes ["bread"], p.1 = "Omelette" → p.2.1 = [] := by decide
    have h0 : hv = [] := hz ("Omelette", hv, mi) hm rfl
    rw [h0] at hpos
    exact absurd hpos (by decide)

/-- C2 witness: the membership characterisation instantiated on the
example mapping: the Pizza row with coverage 3/4 is in the ranked
output. -/
theorem rank_filter_sort_spec_witness :
    (("Pizza", (["dough", "tomato", "cheese"], ["olive oil"]),
        coverageOf 3 1) : Row) ∈ rankMatches msEx :=
  (rank_filter_sort_spec.2.1 msEx "Pizza" ["dough", "tomato", "cheese"]
    ["olive oil"] (coverageOf 3 1)).mpr ⟨by decide, by decide, rfl⟩

/-- C10: match_recipes depends only on the set of normalized non-empty
input strings: two inputs whose normalized sets have the same members
produce identical match results (hence reordering, duplicates and empty
entries do not matter). -/
theorem match_depends_only_on_normSet (xs ys : List String)
    (h : ∀ s : String, s ∈ normSet xs ↔ s ∈ normSet ys) :
    matchRecipes xs = matchRecipes ys := by
  have hc : ∀ r : String,
      (normSet xs).contains (normalize r) = (normSet ys).contains (normalize r) := by
    intro r
    have h1 := h (normalize r)
    rw [Bool.eq_iff_iff]
    constructor <;> intro hx
    · exact List.elem_eq_true_of_mem (h1.mp (List.mem_of_elem_eq_true hx))
    · exact List.elem_eq_true_of_mem (h1.mpr (List.mem_of_elem_eq_true hx))
  rw [matchRecipes_eq, matchRecipes_eq]
  apply List.map_congr_left
  intro p _
  simp only [hc]

/-- C10 witness: reordering, duplicating, and inserting an empty entry
leaves the match result unchanged. -/
theorem match_depends_only_on_normSet_witness :
    matchRecipes ["Milk", "egg", ""] = matchRecipes ["egg", "egg", "milk"] :=
  match_depends_only_on_normSet _ _ (by
    intro s
    have h1 : normSet ["Milk", "egg", ""] = ["milk", "egg"] := by decide
    have h2 : normSet ["egg", "egg", "milk"] = ["egg", "egg", "milk"] := by decide
    rw [h1, h2]
    simp only [List.mem_cons, List.not_mem_nil, or_false]
    tauto)

end FridgePal
